import Mathlib

/-!
Verification of the multipart-upload orchestration engine of
`mc-aws-serverless` against its specification.

The development shallowly embeds the two orchestration entry points of
`src/s3_multi_part_upload.py` (`upload_large_file`, `resume_upload`) and the
background worker of `src/async_uploads/async-upload_with_sqs.py`
(`upload_to_s3_background`, `update_job_status`, `get_upload_status`).

Files are byte lists; the blob-store backend is an oracle (`Backend`) that
decides, for every part number and attempt index, whether the `upload_part`
call raises a `ClientError`, and supplies the returned ETags.  Every backend
call made by the code is recorded as an `Event` in an execution trace, and
each embedded function returns the trace it produced together with the
Python function's outcome (`Except Err _`, errors standing for the raised
exceptions).
-/

namespace MCUpload

/-- One entry of the `parts` list: `{'PartNumber': n, 'ETag': tag}`. -/
structure Part where
  partNumber : Nat
  etag : String
deriving DecidableEq, Repr

/-- Result of a successful `complete_multipart_upload` call
(`result['Location']`, `result['ETag']`). -/
structure CompleteResult where
  location : String
  etag : String
deriving DecidableEq, Repr

/-- Python exceptions that the embedded code can raise. -/
inductive Err
  /-- a `botocore` `ClientError` raised by a backend call -/
  | clientError
  /-- `Exception("Failed to upload part {p} after {m} attempts")` -/
  | partFailed (partNumber attempts : Nat)
  /-- an `OSError` raised by `os.remove` -/
  | osError
deriving DecidableEq, Repr

/-- `str(e)` of each modelled exception. -/
def errStr : Err → String
  | .clientError => "An error occurred calling the backend"
  | .partFailed p m =>
      "Failed to upload part " ++ toString p ++ " after " ++ toString m ++ " attempts"
  | .osError => "could not remove temporary file"

/-- Job status values written by the worker and the front end. -/
inductive JobStatus
  | initiated
  | processing
  | completed
  | failed
deriving DecidableEq, Repr

/-- Optional `metadata` field of a job-status record. -/
inductive Metadata
  /-- `{'location': ..., 'etag': ...}` on success -/
  | resultMeta (location etag : String)
  /-- `{'error': str(e)}` on failure -/
  | errorMeta (message : String)
deriving DecidableEq, Repr

/-- One call to `update_job_status(job_id, status, progress, metadata)`. -/
structure StatusWrite where
  jobId : String
  status : JobStatus
  progress : ℚ
  metadata : Option Metadata
deriving DecidableEq, Repr

/-- Observable effects of the embedded code: each backend call and each
status-store write, in program order. -/
inductive Event
  | createMultipart (key : String)
  | putPart (uid : String) (partNumber : Nat) (body : List Nat)
  | completeMultipart (uid : String) (parts : List Part)
  | abortMultipart (uid : String)
  | statusWrite (w : StatusWrite)
deriving DecidableEq, Repr

/-- The blob-store backend as an oracle: `putPartFault p a = true` means the
`a`-th (0-based) `upload_part` call for part `p` raises `ClientError`. -/
structure Backend where
  createFault : Bool
  uploadId : String
  putPartFault : Nat → Nat → Bool
  putPartEtag : Nat → Nat → String
  completeFault : Bool
  completeLocation : String
  completeEtag : String

/-- The `(partNumber, body)` of every `upload_part` call in a trace. -/
def putPartCalls (tr : List Event) : List (Nat × List Nat) :=
  tr.filterMap fun e => match e with
    | .putPart _ p body => some (p, body)
    | _ => none

/-- The parts argument of every `complete_multipart_upload` call in a trace. -/
def completeCalls (tr : List Event) : List (List Part) :=
  tr.filterMap fun e => match e with
    | .completeMultipart _ ps => some ps
    | _ => none

/-- The upload id of every `abort_multipart_upload` call in a trace. -/
def abortCalls (tr : List Event) : List String :=
  tr.filterMap fun e => match e with
    | .abortMultipart u => some u
    | _ => none

/-- Every `update_job_status` call in a trace. -/
def statusWrites (tr : List Event) : List StatusWrite :=
  tr.filterMap fun e => match e with
    | .statusWrite w => some w
    | _ => none

/-- The `p`-th 1-based contiguous chunk of at most `P` bytes of `file`:
what the `p`-th sequential `f.read(chunk_size)` returns. -/
def fileChunk (file : List Nat) (P p : Nat) : List Nat :=
  (file.drop ((p - 1) * P)).take P

/-- `self.s3_client.abort_multipart_upload(...)` wrapped in `try/except`:
the call is always issued (and hence traced); its outcome is discarded by
the bare `except: pass`. -/
def abortCall (abortFault : Bool) (uid : String) : List Event × Except Err Unit :=
  ([Event.abortMultipart uid],
    if abortFault then Except.error Err.clientError else Except.ok ())

/-! ## `S3MultipartUploader.upload_large_file` -/

/-- The inner `for attempt in range(max_retries)` retry loop of
`upload_large_file`, entered with `remaining+1` attempts left, the current
attempt having 0-based index `attempt` (so `attempt + remaining + 1 = M` at
every call from `putPartLoop`).  `.ok none` means the `for` loop ran out of
iterations without the body ever succeeding or raising, which happens only
when `max_retries = 0`: the part is then silently skipped. -/
def putPartGo (B : Backend) (uid : String) (p : Nat) (body : List Nat) (M : Nat) :
    Nat → Nat → List Event × Except Err (Option String)
  | _, 0 => ([], .ok none)
  | attempt, remaining + 1 =>
    let ev := Event.putPart uid p body
    if B.putPartFault p attempt then
      if remaining == 0 then
        -- `attempt = max_retries - 1`: raise
        -- `Exception("Failed to upload part {p} after {M} attempts") from e`
        ([ev], .error (.partFailed p M))
      else
        let r := putPartGo B uid p body M (attempt + 1) remaining
        (ev :: r.1, r.2)
    else
      ([ev], .ok (some (B.putPartEtag p attempt)))

/-- The retry loop for one part, started at attempt 0 with `M` attempts. -/
def putPartLoop (B : Backend) (uid : String) (p : Nat) (body : List Nat)
    (M : Nat) : List Event × Except Err (Option String) :=
  putPartGo B uid p body M 0 M

/-- The `for part_num in range(1, total_parts + 1)` loop of
`upload_large_file`: `rem` is the unread tail of the file (`f.read` advances
it every iteration), `parts` the accumulated parts list. -/
def uploadParts (B : Backend) (uid : String) (chunkSize maxRetries : Nat) :
    List Nat → List Nat → List Part → List Event × Except Err (List Part)
  | [], _, parts => ([], .ok parts)
  | p :: ps, rem, parts =>
    let chunk := rem.take chunkSize
    let r := putPartLoop B uid p chunk maxRetries
    match r.2 with
    | .error e => (r.1, .error e)
    | .ok none =>
      let rest := uploadParts B uid chunkSize maxRetries ps (rem.drop chunkSize) parts
      (r.1 ++ rest.1, rest.2)
    | .ok (some etag) =>
      let rest := uploadParts B uid chunkSize maxRetries ps (rem.drop chunkSize)
        (parts ++ [⟨p, etag⟩])
      (r.1 ++ rest.1, rest.2)

/-- `S3MultipartUploader.upload_large_file(file_path, s3_key, chunk_size,
max_retries)`.  On any exception after `upload_id` is bound, the handler
issues one abort call (its own failure swallowed) and re-raises; if
`create_multipart_upload` itself raised, `upload_id` is unbound, so the
abort attempt dies on the `NameError` inside the nested `try` (swallowed by
the bare `except`) and no abort call reaches the backend. -/
def upload_large_file (B : Backend) (abortFault : Bool) (file : List Nat)
    (key : String) (chunkSize maxRetries : Nat) :
    List Event × Except Err CompleteResult :=
  let fileSize := file.length
  let totalParts := (fileSize + chunkSize - 1) / chunkSize
  if B.createFault then
    ([Event.createMultipart key], .error .clientError)
  else
    let uid := B.uploadId
    let pr := uploadParts B uid chunkSize maxRetries (List.range' 1 totalParts) file []
    match pr.2 with
    | .error e =>
      let ar := abortCall abortFault uid
      (Event.createMultipart key :: pr.1 ++ ar.1, .error e)
    | .ok parts =>
      let evC := Event.completeMultipart uid parts
      if B.completeFault then
        let ar := abortCall abortFault uid
        (Event.createMultipart key :: pr.1 ++ evC :: ar.1, .error .clientError)
      else
        (Event.createMultipart key :: pr.1 ++ [evC],
          .ok ⟨B.completeLocation, B.completeEtag⟩)

/-! ## `S3MultipartUploader.resume_upload` -/

/-- The part loop of `resume_upload`: `f.read(chunk_size)` advances the file
position every iteration, *before* the already-uploaded skip test; parts in
`ackedNums` are skipped; a `ClientError` from `upload_part` propagates
immediately (there is no retry wrapper and no `try/except` here). -/
def resumeParts (B : Backend) (uid : String) (ackedNums : List Nat)
    (chunkSize : Nat) :
    List Nat → List Nat → List Part → List Event × Except Err (List Part)
  | [], _, parts => ([], .ok parts)
  | p :: ps, rem, parts =>
    let chunk := rem.take chunkSize
    if ackedNums.contains p then
      resumeParts B uid ackedNums chunkSize ps (rem.drop chunkSize) parts
    else
      let ev := Event.putPart uid p chunk
      if B.putPartFault p 0 then
        ([ev], .error .clientError)
      else
        let rest := resumeParts B uid ackedNums chunkSize ps (rem.drop chunkSize)
          (parts ++ [⟨p, B.putPartEtag p 0⟩])
        (ev :: rest.1, rest.2)

/-- `S3MultipartUploader.resume_upload(file_path, s3_key, upload_id,
uploaded_parts, chunk_size)`: starts from `parts = list(uploaded_parts)`,
appends the newly uploaded gap parts in ascending part order (no sort), and
calls `complete_multipart_upload` once with the resulting list. -/
def resume_upload (B : Backend) (file : List Nat) (key uid : String)
    (uploadedParts : List Part) (chunkSize : Nat) :
    List Event × Except Err CompleteResult :=
  let fileSize := file.length
  let totalParts := (fileSize + chunkSize - 1) / chunkSize
  let ackedNums := uploadedParts.map Part.partNumber
  let pr := resumeParts B uid ackedNums chunkSize (List.range' 1 totalParts)
    file uploadedParts
  match pr.2 with
  | .error e => (pr.1, .error e)
  | .ok parts =>
    let evC := Event.completeMultipart uid parts
    if B.completeFault then (pr.1 ++ [evC], .error .clientError)
    else (pr.1 ++ [evC], .ok ⟨B.completeLocation, B.completeEtag⟩)

/-! ## `upload_to_s3_background` (queue worker) -/

/-- Python return value `{'status': 'success', 'location': ...}`. -/
structure WorkerResult where
  status : String
  location : String
deriving DecidableEq, Repr

/-- The `while True: chunk = f.read(CHUNK_SIZE); if not chunk: break` loop
of `upload_to_s3_background`: no retry, a progress status write after every
successful part. -/
def workerParts (B : Backend) (uid jobId : String) (chunkSize fileSize : Nat)
    (rem : List Nat) (partNum : Nat) (parts : List Part) (bytesUploaded : Nat) :
    List Event × Except Err (List Part) :=
  if h : (rem.take chunkSize).isEmpty then ([], .ok parts)
  else
    let chunk := rem.take chunkSize
    let ev := Event.putPart uid partNum chunk
    if B.putPartFault partNum 0 then
      ([ev], .error .clientError)
    else
      let newBytes := bytesUploaded + chunk.length
      let evS := Event.statusWrite
        ⟨jobId, .processing, ((newBytes : ℚ) / (fileSize : ℚ)) * 100, none⟩
      let r := workerParts B uid jobId chunkSize fileSize (rem.drop chunkSize)
        (partNum + 1) (parts ++ [⟨partNum, B.putPartEtag partNum 0⟩]) newBytes
      (ev :: evS :: r.1, r.2)
termination_by rem.length
decreasing_by
  have h' : ¬chunkSize = 0 ∧ ¬rem = [] := by simpa using h
  have h1 : chunkSize ≠ 0 := h'.1
  have h2 := List.length_pos.mpr h'.2
  simp only [List.length_drop]
  omega

/-- The `except Exception as e:` handler tail of `upload_to_s3_background`
after the abort attempt: write the `failed` status record carrying
`str(e)`, then `if os.path.exists(file_path): os.remove(file_path)` —
whose own failure raises out of the handler in place of the bare
`raise` — and finally re-raise the caught exception. -/
def failCleanup (removeFault : Bool) (abortEvs : List Event) (jobId : String)
    (e : Err) : List Event × Except Err WorkerResult :=
  let evF := Event.statusWrite ⟨jobId, .failed, 0, some (.errorMeta (errStr e))⟩
  if removeFault then (abortEvs ++ [evF], .error .osError)
  else (abortEvs ++ [evF], .error e)

/-- `upload_to_s3_background(file_path, s3_key, bucket_name, job_id)`:
status goes to `processing` first; parts are uploaded with no retry;
on success `os.remove(file_path)` runs *before* the `completed` status
write, so a remove failure diverts into the failure handler; on any
exception the handler aborts the multipart session (swallowing the abort's
own failure; no abort call is issued when `create_multipart_upload` raised,
since `upload_id` is then unbound and the attempt dies on a swallowed
`NameError`), records the `failed` status, removes the temp file and
re-raises. -/
def upload_to_s3_background (B : Backend) (abortFault removeFault : Bool)
    (file : List Nat) (key jobId : String) (chunkSize : Nat) :
    List Event × Except Err WorkerResult :=
  let ev0 := Event.statusWrite ⟨jobId, .processing, 0, none⟩
  let fileSize := file.length
  if B.createFault then
    let r := failCleanup removeFault [] jobId .clientError
    (ev0 :: Event.createMultipart key :: r.1, r.2)
  else
    let uid := B.uploadId
    let pr := workerParts B uid jobId chunkSize fileSize file 1 [] 0
    let pre := ev0 :: Event.createMultipart key :: pr.1
    match pr.2 with
    | .error e =>
      let ar := abortCall abortFault uid
      let r := failCleanup removeFault ar.1 jobId e
      (pre ++ r.1, r.2)
    | .ok parts =>
      let evC := Event.completeMultipart uid parts
      if B.completeFault then
        let ar := abortCall abortFault uid
        let r := failCleanup removeFault ar.1 jobId .clientError
        (pre ++ evC :: r.1, r.2)
      else
        if removeFault then
          let ar := abortCall abortFault uid
          let r := failCleanup removeFault ar.1 jobId .osError
          (pre ++ evC :: r.1, r.2)
        else
          let evDone := Event.statusWrite
            ⟨jobId, .completed, 100, some (.resultMeta B.completeLocation B.completeEtag)⟩
          (pre ++ [evC, evDone], .ok ⟨"success", B.completeLocation⟩)

/-! ## Status store (`update_job_status`, `get_upload_status`) -/

/-- The key-value store with per-key expiry backing job status: each entry
is `(key, value, expiresAt)`; `setex` prepends, so the newest write for a
key shadows older ones. -/
structure StatusStore where
  entries : List (String × String × Nat)
deriving DecidableEq, Repr

/-- `redis_conn.setex(key, ttl, value)` at absolute time `now`. -/
def setex (s : StatusStore) (key : String) (ttl : Nat) (now : Nat)
    (value : String) : StatusStore :=
  ⟨(key, value, now + ttl) :: s.entries⟩

/-- `redis_conn.get(key)` at absolute time `now`: an entry whose expiry
time has passed is gone, exactly as if it had never been written. -/
def redisGet (s : StatusStore) (now : Nat) (key : String) : Option String :=
  match s.entries.find? (fun e => e.1 == key) with
  | some (_, v, expiresAt) => if now < expiresAt then some v else none
  | none => none

/-- Body of an HTTP response of the status endpoint. -/
inductive HttpBody
  | jobData (s : String)
  | errorBody (msg : String)
deriving DecidableEq, Repr

/-- `GET /upload/status/<job_id>`: looks up `job:{job_id}` and returns
`404 {'error': 'Job not found'}` when the key is absent, else `200` with
the stored record. -/
def get_upload_status (s : StatusStore) (now : Nat) (jobId : String) :
    Nat × HttpBody :=
  match redisGet s now ("job:" ++ jobId) with
  | none => (404, .errorBody "Job not found")
  | some v => (200, .jobData v)

/-! ## Auxiliary definitions used by the statements and proofs -/

/-- The event prefix produced by a run of the part loop in which every
`upload_part` call succeeds on its first attempt: one call per part, each
carrying the next sequential `f.read(chunkSize)` result. -/
def okEvents (uid : String) (P : Nat) : List Nat → List Nat → List Event
  | [], _ => []
  | p :: ps, rem => Event.putPart uid p (rem.take P) :: okEvents uid P ps (rem.drop P)

/-- The parts list accumulated by an all-first-attempt-success run. -/
def okParts (B : Backend) (pnums : List Nat) : List Part :=
  pnums.map (fun p => ⟨p, B.putPartEtag p 0⟩)

/-- A backend on which every call succeeds. -/
def allOkBackend : Backend :=
  { createFault := false, uploadId := "uid-1",
    putPartFault := fun _ _ => false,
    putPartEtag := fun p _ => "etag-" ++ toString p,
    completeFault := false,
    completeLocation := "s3://bucket/key", completeEtag := "final-etag" }

/-- A backend on which part 2 fails on its first two attempts and succeeds
afterwards; every other call succeeds. -/
def flakyBackend : Backend :=
  { allOkBackend with putPartFault := fun p a => p == 2 && a < 2 }

/-- A backend on which every attempt for part 2 fails; every other call
succeeds. -/
def deadPartBackend : Backend :=
  { allOkBackend with putPartFault := fun p _ => p == 2 }

/-! ## Retry-loop lemmas -/

theorem putPartGo_events (B : Backend) (uid : String) (p : Nat) (body : List Nat)
    (M : Nat) : ∀ r a e, e ∈ (putPartGo B uid p body M a r).1 →
    e = Event.putPart uid p body := by
  intro r
  induction r with
  | zero => intro a e he; simp [putPartGo] at he
  | succ r ih =>
    intro a e he
    rw [putPartGo] at he
    split at he
    · split at he
      · simpa using he
      · simp only [List.mem_cons] at he
        rcases he with he | he
        · exact he
        · exact ih (a + 1) e he
    · simpa using he

theorem putPartGo_length (B : Backend) (uid : String) (p : Nat) (body : List Nat)
    (M : Nat) : ∀ r a, (putPartGo B uid p body M a r).1.length ≤ r := by
  intro r
  induction r with
  | zero => intro a; simp [putPartGo]
  | succ r ih =>
    intro a
    rw [putPartGo]
    split
    · split
      · simp
      · simpa using ih (a + 1)
    · simp

theorem putPartGo_error (B : Backend) (uid : String) (p : Nat) (body : List Nat)
    (M : Nat) : ∀ r a e, (putPartGo B uid p body M a r).2 = .error e →
    e = Err.partFailed p M := by
  intro r
  induction r with
  | zero => intro a e he; simp [putPartGo] at he
  | succ r ih =>
    intro a e he
    rw [putPartGo] at he
    split at he
    · split at he
      · simp only [Except.error.injEq] at he
        exact he.symm
      · exact ih (a + 1) e he
    · simp at he

theorem putPartGo_success (B : Backend) (uid : String) (p : Nat) (body : List Nat)
    (M : Nat) : ∀ j r a, j < r →
    (∀ b, b < j → B.putPartFault p (a + b) = true) →
    B.putPartFault p (a + j) = false →
    putPartGo B uid p body M a r =
      (List.replicate (j + 1) (Event.putPart uid p body),
        .ok (some (B.putPartEtag p (a + j)))) := by
  intro j
  induction j with
  | zero =>
    intro r a hr _ hok
    match r, hr with
    | r + 1, _ =>
      rw [putPartGo]
      simp only [Nat.add_zero] at hok
      simp [hok]
  | succ j ih =>
    intro r a hr hfail hok
    match r, hr with
    | r + 1, hr =>
      have hfa : B.putPartFault p a = true := by
        have := hfail 0 (by omega)
        simpa using this
      have hrj : j < r := by omega
      have hfail' : ∀ b, b < j → B.putPartFault p (a + 1 + b) = true := by
        intro b hb
        have harith : a + 1 + b = a + (b + 1) := by omega
        rw [harith]
        exact hfail (b + 1) (by omega)
      have hok' : B.putPartFault p (a + 1 + j) = false := by
        have harith : a + 1 + j = a + (j + 1) := by omega
        rw [harith]
        exact hok
      rw [putPartGo]
      simp only [hfa, if_true]
      have hrne : (r == 0) = false := by
        simp only [beq_eq_false_iff_ne, ne_eq]
        omega
      rw [if_neg (by simp [hrne])]
      rw [ih r (a + 1) hrj hfail' hok']
      have harith : a + 1 + j = a + (j + 1) := by omega
      simp [List.replicate_succ, harith]

theorem putPartGo_exhaust (B : Backend) (uid : String) (p : Nat) (body : List Nat)
    (M : Nat) : ∀ r a, 1 ≤ r →
    (∀ b, b < r → B.putPartFault p (a + b) = true) →
    putPartGo B uid p body M a r =
      (List.replicate r (Event.putPart uid p body),
        .error (.partFailed p M)) := by
  intro r
  induction r with
  | zero => intro a h; omega
  | succ r ih =>
    intro a _ hfail
    have hfa : B.putPartFault p a = true := by
      have := hfail 0 (by omega)
      simpa using this
    match r with
    | 0 =>
      rw [putPartGo]
      simp [hfa]
    | r + 1 =>
      have hfail' : ∀ b, b < r + 1 → B.putPartFault p (a + 1 + b) = true := by
        intro b hb
        have harith : a + 1 + b = a + (b + 1) := by omega
        rw [harith]
        exact hfail (b + 1) (by omega)
      rw [putPartGo]
      simp only [hfa, if_true]
      rw [if_neg (by simp)]
      rw [ih (a + 1) (by omega) hfail']
      simp [List.replicate_succ]

theorem putPartLoop_zero (B : Backend) (uid : String) (p : Nat) (body : List Nat) :
    putPartLoop B uid p body 0 = ([], .ok none) := rfl

theorem putPartLoop_first_ok (B : Backend) (uid : String) (p : Nat) (body : List Nat)
    (M : Nat) (hM : 1 ≤ M) (hok : B.putPartFault p 0 = false) :
    putPartLoop B uid p body M =
      ([Event.putPart uid p body], .ok (some (B.putPartEtag p 0))) := by
  have h := putPartGo_success B uid p body M 0 M 0 hM (by omega) (by simpa using hok)
  simpa [putPartLoop] using h

theorem putPartLoop_success (B : Backend) (uid : String) (p : Nat) (body : List Nat)
    (M f : Nat) (hf : f < M)
    (hfail : ∀ b, b < f → B.putPartFault p b = true)
    (hok : B.putPartFault p f = false) :
    putPartLoop B uid p body M =
      (List.replicate (f + 1) (Event.putPart uid p body),
        .ok (some (B.putPartEtag p f))) := by
  have h := putPartGo_success B uid p body M f M 0 hf
    (by intro b hb; simpa using hfail b hb) (by simpa using hok)
  simpa [putPartLoop] using h

theorem putPartLoop_exhaust (B : Backend) (uid : String) (p : Nat) (body : List Nat)
    (M : Nat) (hM : 1 ≤ M)
    (hfail : ∀ b, b < M → B.putPartFault p b = true) :
    putPartLoop B uid p body M =
      (List.replicate M (Event.putPart uid p body),
        .error (.partFailed p M)) := by
  have h := putPartGo_exhaust B uid p body M M 0 hM
    (by intro b hb; simpa using hfail b hb)
  simpa [putPartLoop] using h

/-! ## Part-loop lemmas for `upload_large_file` -/

theorem uploadParts_all_ok (B : Backend) (uid : String) (P M : Nat) (hM : 1 ≤ M) :
    ∀ pnums rem parts0, (∀ p ∈ pnums, B.putPartFault p 0 = false) →
    uploadParts B uid P M pnums rem parts0 =
      (okEvents uid P pnums rem, .ok (parts0 ++ okParts B pnums)) := by
  intro pnums
  induction pnums with
  | nil => intro rem parts0 _; simp [uploadParts, okEvents, okParts]
  | cons p ps ih =>
    intro rem parts0 hok
    have hp : B.putPartFault p 0 = false := hok p (by simp)
    rw [uploadParts]
    rw [putPartLoop_first_ok B uid p (rem.take P) M hM hp]
    simp only []
    rw [ih (rem.drop P) (parts0 ++ [Part.mk p (B.putPartEtag p 0)])
      (fun q hq => hok q (by simp [hq]))]
    simp [okEvents, okParts]

theorem okEvents_aligned (uid : String) (P : Nat) (file : List Nat) :
    ∀ n t, okEvents uid P (List.range' (t + 1) n) (file.drop (t * P)) =
      (List.range' (t + 1) n).map (fun p => Event.putPart uid p (fileChunk file P p)) := by
  intro n
  induction n with
  | zero => intro t; simp [okEvents]
  | succ n ih =>
    intro t
    rw [List.range'_succ]
    rw [okEvents]
    have hdrop : (file.drop (t * P)).drop P = file.drop ((t + 1) * P) := by
      rw [List.drop_drop]
      congr 1
      ring
    have hchunk : (file.drop (t * P)).take P = fileChunk file P (t + 1) := by
      simp [fileChunk]
    have harith : t + 1 + 1 = (t + 1) + 1 := rfl
    rw [hchunk, hdrop]
    have := ih (t + 1)
    rw [this]
    simp [List.range'_succ]

theorem uploadParts_prefix_run (B : Backend) (uid : String) (P M : Nat) (hM : 1 ≤ M) :
    ∀ l₁ l₂ rem parts0, (∀ p ∈ l₁, B.putPartFault p 0 = false) →
    uploadParts B uid P M (l₁ ++ l₂) rem parts0 =
      (okEvents uid P l₁ rem ++
        (uploadParts B uid P M l₂ (rem.drop (l₁.length * P)) (parts0 ++ okParts B l₁)).1,
       (uploadParts B uid P M l₂ (rem.drop (l₁.length * P)) (parts0 ++ okParts B l₁)).2) := by
  intro l₁
  induction l₁ with
  | nil => intro l₂ rem parts0 _; simp [okEvents, okParts]
  | cons p ps ih =>
    intro l₂ rem parts0 hok
    have hp : B.putPartFault p 0 = false := hok p (by simp)
    rw [List.cons_append, uploadParts]
    rw [putPartLoop_first_ok B uid p (rem.take P) M hM hp]
    simp only []
    rw [ih l₂ (rem.drop P) (parts0 ++ [Part.mk p (B.putPartEtag p 0)])
      (fun q hq => hok q (by simp [hq]))]
    have hdrop : (rem.drop P).drop (ps.length * P) = rem.drop ((p :: ps).length * P) := by
      rw [List.drop_drop]
      congr 1
      simp [Nat.succ_mul]
      exact Nat.add_comm P (ps.length * P)
    rw [hdrop]
    simp [okEvents, okParts]

theorem putPartCalls_append (a b : List Event) :
    putPartCalls (a ++ b) = putPartCalls a ++ putPartCalls b :=
  List.filterMap_append a b _

theorem completeCalls_append (a b : List Event) :
    completeCalls (a ++ b) = completeCalls a ++ completeCalls b :=
  List.filterMap_append a b _

theorem abortCalls_append (a b : List Event) :
    abortCalls (a ++ b) = abortCalls a ++ abortCalls b :=
  List.filterMap_append a b _

theorem statusWrites_append (a b : List Event) :
    statusWrites (a ++ b) = statusWrites a ++ statusWrites b :=
  List.filterMap_append a b _

theorem putPartCalls_replicate (k : Nat) (uid : String) (p : Nat) (body : List Nat) :
    putPartCalls (List.replicate k (Event.putPart uid p body)) =
      List.replicate k (p, body) := by
  simp [putPartCalls]

theorem putPartLoop_calls (B : Backend) (uid : String) (p : Nat) (body : List Nat)
    (M : Nat) : ∀ c, c ∈ putPartCalls (putPartLoop B uid p body M).1 →
    c = (p, body) := by
  intro c hc
  simp only [putPartCalls, List.mem_filterMap] at hc
  obtain ⟨e, he, hsome⟩ := hc
  have hev := putPartGo_events B uid p body M M 0 e he
  subst hev
  simp only [Option.some.injEq] at hsome
  exact hsome.symm

theorem uploadParts_calls_mem (B : Backend) (uid : String) (P M : Nat) :
    ∀ pnums rem parts0 c,
    c ∈ putPartCalls (uploadParts B uid P M pnums rem parts0).1 → c.1 ∈ pnums := by
  intro pnums
  induction pnums with
  | nil => intro rem parts0 c hc; simp [uploadParts, putPartCalls] at hc
  | cons p ps ih =>
    intro rem parts0 c hc
    rw [uploadParts] at hc
    split at hc
    · have := putPartLoop_calls B uid p (rem.take P) M c hc
      simp [this]
    · rw [putPartCalls_append] at hc
      rcases List.mem_append.mp hc with hc | hc
      · have := putPartLoop_calls B uid p (rem.take P) M c hc
        simp [this]
      · exact List.mem_cons_of_mem p (ih _ _ c hc)
    · rw [putPartCalls_append] at hc
      rcases List.mem_append.mp hc with hc | hc
      · have := putPartLoop_calls B uid p (rem.take P) M c hc
        simp [this]
      · exact List.mem_cons_of_mem p (ih _ _ c hc)

theorem putPartCalls_map_putPart (uid : String) (g : Nat → List Nat) (l : List Nat) :
    putPartCalls (l.map (fun p => Event.putPart uid p (g p))) =
      l.map (fun p => (p, g p)) := by
  induction l with
  | nil => simp [putPartCalls]
  | cons p ps ih =>
    simp only [List.map_cons, putPartCalls, List.filterMap_cons] at ih ⊢
    rw [ih]

theorem uploadParts_events (B : Backend) (uid : String) (P M : Nat) :
    ∀ pnums rem parts0 e, e ∈ (uploadParts B uid P M pnums rem parts0).1 →
    ∃ q b, e = Event.putPart uid q b := by
  intro pnums
  induction pnums with
  | nil => intro rem parts0 e he; simp [uploadParts] at he
  | cons p ps ih =>
    intro rem parts0 e he
    rw [uploadParts] at he
    split at he
    · exact ⟨p, rem.take P, putPartGo_events B uid p (rem.take P) M M 0 e he⟩
    · rcases List.mem_append.mp he with he | he
      · exact ⟨p, rem.take P, putPartGo_events B uid p (rem.take P) M M 0 e he⟩
      · exact ih _ _ e he
    · rcases List.mem_append.mp he with he | he
      · exact ⟨p, rem.take P, putPartGo_events B uid p (rem.take P) M M 0 e he⟩
      · exact ih _ _ e he

theorem abortCalls_of_putParts (tr : List Event)
    (h : ∀ e ∈ tr, ∃ u q b, e = Event.putPart u q b) : abortCalls tr = [] := by
  rw [abortCalls, List.filterMap_eq_nil_iff]
  intro e he
  obtain ⟨u, q, b, rfl⟩ := h e he
  rfl

theorem completeCalls_of_putParts (tr : List Event)
    (h : ∀ e ∈ tr, ∃ u q b, e = Event.putPart u q b) : completeCalls tr = [] := by
  rw [completeCalls, List.filterMap_eq_nil_iff]
  intro e he
  obtain ⟨u, q, b, rfl⟩ := h e he
  rfl

theorem statusWrites_of_putParts (tr : List Event)
    (h : ∀ e ∈ tr, ∃ u q b, e = Event.putPart u q b) : statusWrites tr = [] := by
  rw [statusWrites, List.filterMap_eq_nil_iff]
  intro e he
  obtain ⟨u, q, b, rfl⟩ := h e he
  rfl

theorem uploadParts_error (B : Backend) (uid : String) (P M : Nat) :
    ∀ pnums rem parts0 e, (uploadParts B uid P M pnums rem parts0).2 = .error e →
    ∃ p ∈ pnums, e = Err.partFailed p M := by
  intro pnums
  induction pnums with
  | nil => intro rem parts0 e he; simp [uploadParts] at he
  | cons p ps ih =>
    intro rem parts0 e he
    rw [uploadParts] at he
    split at he
    · next e' heq =>
      simp only [Except.error.injEq] at he
      subst he
      exact ⟨p, by simp, putPartGo_error B uid p (rem.take P) M M 0 e' heq⟩
    · obtain ⟨q, hq, hqe⟩ := ih _ _ e he
      exact ⟨q, by simp [hq], hqe⟩
    · obtain ⟨q, hq, hqe⟩ := ih _ _ e he
      exact ⟨q, by simp [hq], hqe⟩

/-! ## Part-loop lemmas for `resume_upload` -/

theorem resumeParts_events (B : Backend) (uid : String) (acked : List Nat) (P : Nat) :
    ∀ pnums rem parts0 e, e ∈ (resumeParts B uid acked P pnums rem parts0).1 →
    ∃ q b, e = Event.putPart uid q b := by
  intro pnums
  induction pnums with
  | nil => intro rem parts0 e he; simp [resumeParts] at he
  | cons p ps ih =>
    intro rem parts0 e he
    rw [resumeParts] at he
    split at he
    · exact ih _ _ e he
    · split at he
      · simp only [List.mem_singleton] at he
        exact ⟨p, rem.take P, he⟩
      · simp only [List.mem_cons] at he
        rcases he with he | he
        · exact ⟨p, rem.take P, he⟩
        · exact ih _ _ e he

theorem resumeParts_calls (B : Backend) (uid : String) (acked : List Nat) (P : Nat) :
    ∀ pnums rem parts0 c, c ∈ putPartCalls (resumeParts B uid acked P pnums rem parts0).1 →
    c.1 ∈ pnums ∧ acked.contains c.1 = false := by
  intro pnums
  induction pnums with
  | nil => intro rem parts0 c hc; simp [resumeParts, putPartCalls] at hc
  | cons p ps ih =>
    intro rem parts0 c hc
    rw [resumeParts] at hc
    split at hc
    · obtain ⟨h1, h2⟩ := ih _ _ c hc
      exact ⟨List.mem_cons_of_mem p h1, h2⟩
    · next hnp =>
      have hnp' : acked.contains p = false := by
        cases h : acked.contains p
        · rfl
        · exact absurd h hnp
      split at hc
      · simp only [putPartCalls, List.filterMap_cons, Option.some.injEq,
          List.filterMap_nil] at hc
        simp only [List.mem_singleton] at hc
        subst hc
        exact ⟨by simp, hnp'⟩
      · simp only [putPartCalls, List.filterMap_cons] at hc
        simp only [List.mem_cons] at hc
        rcases hc with hc | hc
        · subst hc
          exact ⟨by simp, hnp'⟩
        · obtain ⟨h1, h2⟩ := ih _ _ c hc
          exact ⟨List.mem_cons_of_mem p h1, h2⟩

theorem resumeParts_calls_sublist (B : Backend) (uid : String) (acked : List Nat)
    (P : Nat) : ∀ pnums rem parts0,
    ((putPartCalls (resumeParts B uid acked P pnums rem parts0).1).map Prod.fst).Sublist
      pnums := by
  intro pnums
  induction pnums with
  | nil => intro rem parts0; simp [resumeParts, putPartCalls]
  | cons p ps ih =>
    intro rem parts0
    rw [resumeParts]
    split
    · exact (ih _ _).cons p
    · split
      · simp only [putPartCalls, List.filterMap_cons, List.filterMap_nil,
          List.map_cons, List.map_nil]
        exact List.Sublist.cons₂ p (List.nil_sublist ps)
      · simp only [putPartCalls, List.filterMap_cons, List.map_cons]
        exact List.Sublist.cons₂ p (ih _ _)

/-- The events of a resume run over a part-number list in which every
non-acked part succeeds on its (sole) attempt. -/
def resumeOkEvents (uid : String) (acked : List Nat) (P : Nat) :
    List Nat → List Nat → List Event
  | [], _ => []
  | p :: ps, rem =>
    if acked.contains p then resumeOkEvents uid acked P ps (rem.drop P)
    else Event.putPart uid p (rem.take P) :: resumeOkEvents uid acked P ps (rem.drop P)

/-- The newly uploaded parts of such a resume run. -/
def resumeOkParts (B : Backend) (acked : List Nat) (pnums : List Nat) : List Part :=
  (pnums.filter (fun p => !acked.contains p)).map
    (fun p => Part.mk p (B.putPartEtag p 0))

theorem resumeParts_prefix_run (B : Backend) (uid : String) (acked : List Nat) (P : Nat) :
    ∀ l₁ l₂ rem parts0,
    (∀ p ∈ l₁, acked.contains p = false → B.putPartFault p 0 = false) →
    resumeParts B uid acked P (l₁ ++ l₂) rem parts0 =
      (resumeOkEvents uid acked P l₁ rem ++
        (resumeParts B uid acked P l₂ (rem.drop (l₁.length * P))
          (parts0 ++ resumeOkParts B acked l₁)).1,
       (resumeParts B uid acked P l₂ (rem.drop (l₁.length * P))
          (parts0 ++ resumeOkParts B acked l₁)).2) := by
  intro l₁
  induction l₁ with
  | nil => intro l₂ rem parts0 _; simp [resumeOkEvents, resumeOkParts]
  | cons p ps ih =>
    intro l₂ rem parts0 hok
    have hdrop : (rem.drop P).drop (ps.length * P) = rem.drop ((p :: ps).length * P) := by
      rw [List.drop_drop]
      congr 1
      simp [Nat.succ_mul]
      exact Nat.add_comm P (ps.length * P)
    rw [List.cons_append, resumeParts]
    cases hc : acked.contains p with
    | true =>
      have hm : p ∈ acked := by simpa using hc
      simp only [if_true]
      rw [ih l₂ (rem.drop P) parts0 (fun q hq hq2 => hok q (by simp [hq]) hq2)]
      rw [hdrop]
      simp [resumeOkEvents, resumeOkParts, hm]
    | false =>
      have hm : p ∉ acked := by simpa using hc
      simp only [Bool.false_eq_true, if_false]
      have hp : B.putPartFault p 0 = false := hok p (by simp) hc
      rw [hp]
      simp only [Bool.false_eq_true, if_false]
      rw [ih l₂ (rem.drop P) (parts0 ++ [Part.mk p (B.putPartEtag p 0)])
        (fun q hq hq2 => hok q (by simp [hq]) hq2)]
      rw [hdrop]
      simp [resumeOkEvents, resumeOkParts, hm]

theorem resumeOkEvents_aligned (uid : String) (acked : List Nat) (P : Nat)
    (file : List Nat) :
    ∀ n t, resumeOkEvents uid acked P (List.range' (t + 1) n) (file.drop (t * P)) =
      ((List.range' (t + 1) n).filter (fun p => !acked.contains p)).map
        (fun p => Event.putPart uid p (fileChunk file P p)) := by
  intro n
  induction n with
  | zero => intro t; simp [resumeOkEvents]
  | succ n ih =>
    intro t
    rw [List.range'_succ, resumeOkEvents]
    have hdrop : (file.drop (t * P)).drop P = file.drop ((t + 1) * P) := by
      rw [List.drop_drop]
      congr 1
      ring
    have hchunk : (file.drop (t * P)).take P = fileChunk file P (t + 1) := by
      simp [fileChunk]
    rw [hchunk, hdrop, ih (t + 1)]
    cases hc : acked.contains (t + 1) with
    | true =>
      have hm : t + 1 ∈ acked := by simpa using hc
      simp [List.filter_cons, hc, hm]
    | false =>
      have hm : t + 1 ∉ acked := by simpa using hc
      simp [List.filter_cons, hc, hm]

theorem resumeParts_all_ok (B : Backend) (uid : String) (acked : List Nat) (P : Nat)
    (file : List Nat) (n : Nat) (parts0 : List Part)
    (hok : ∀ p, acked.contains p = false → B.putPartFault p 0 = false) :
    resumeParts B uid acked P (List.range' 1 n) file parts0 =
      (((List.range' 1 n).filter (fun p => !acked.contains p)).map
          (fun p => Event.putPart uid p (fileChunk file P p)),
        .ok (parts0 ++ resumeOkParts B acked (List.range' 1 n))) := by
  have h := resumeParts_prefix_run B uid acked P (List.range' 1 n) [] file parts0
    (fun p _ hp => hok p hp)
  rw [List.append_nil] at h
  rw [h]
  simp only [resumeParts]
  have hev := resumeOkEvents_aligned uid acked P file n 0
  simp only [Nat.zero_mul, List.drop_zero] at hev
  rw [hev]
  simp

theorem resume_upload_trace (B : Backend) (file : List Nat) (key uid : String)
    (uploadedParts : List Part) (P : Nat) :
    ∃ tail, (resume_upload B file key uid uploadedParts P).1 =
      (resumeParts B uid (uploadedParts.map Part.partNumber) P
        (List.range' 1 ((file.length + P - 1) / P)) file uploadedParts).1 ++ tail ∧
      ∀ e ∈ tail, ∃ ps, e = Event.completeMultipart uid ps := by
  rw [resume_upload]
  rcases h : (resumeParts B uid (uploadedParts.map Part.partNumber) P
      (List.range' 1 ((file.length + P - 1) / P)) file uploadedParts).2 with e | parts
  · exact ⟨[], by simp, by simp⟩
  · cases hcf : B.completeFault
    · exact ⟨[Event.completeMultipart uid parts], by simp [hcf], by simp⟩
    · exact ⟨[Event.completeMultipart uid parts], by simp [hcf], by simp⟩

theorem range'_split (q N : Nat) (h1 : 1 ≤ q) (h2 : q ≤ N) :
    List.range' 1 N = List.range' 1 (q - 1) ++ q :: List.range' (q + 1) (N - q) := by
  have h := List.range'_append_1 1 (q - 1) (N - q + 1)
  rw [show 1 + (q - 1) = q by omega] at h
  rw [List.range'_succ] at h
  rw [show N - q + 1 + (q - 1) = N by omega] at h
  exact h.symm

/-! ## Claim C4 -/

/-- **C4.** `resume_upload` never calls `put_part` with a part number that
appears in `previously_acked_parts` (regardless of the backend's fault
behaviour and of the parts' on-disk content), and — when the remaining
puts succeed — uploads exactly the part numbers of `1..ceil(S/P)` absent
from that set, in ascending order. -/
theorem resume_upload_skips_acked
    (B : Backend) (file : List Nat) (key uid : String)
    (uploadedParts : List Part) (P : Nat) (hP : 1 ≤ P) :
    (∀ c ∈ putPartCalls (resume_upload B file key uid uploadedParts P).1,
      c.1 ∈ List.range' 1 ((file.length + P - 1) / P) ∧
      c.1 ∉ uploadedParts.map Part.partNumber) ∧
    ((∀ p, B.putPartFault p 0 = false) →
      (putPartCalls (resume_upload B file key uid uploadedParts P).1).map Prod.fst =
        (List.range' 1 ((file.length + P - 1) / P)).filter
          (fun p => !(uploadedParts.map Part.partNumber).contains p)) := by
  obtain ⟨tail, htr, htail⟩ := resume_upload_trace B file key uid uploadedParts P
  have htailcalls : putPartCalls tail = [] := by
    rw [putPartCalls, List.filterMap_eq_nil_iff]
    intro e he
    obtain ⟨ps, rfl⟩ := htail e he
    rfl
  constructor
  · intro c hc
    rw [htr, putPartCalls_append, htailcalls, List.append_nil] at hc
    obtain ⟨h1, h2⟩ := resumeParts_calls B uid (uploadedParts.map Part.partNumber) P
      _ _ _ c hc
    exact ⟨h1, by simpa using h2⟩
  · intro hok
    rw [htr, putPartCalls_append, htailcalls, List.append_nil]
    rw [resumeParts_all_ok B uid (uploadedParts.map Part.partNumber) P file
      ((file.length + P - 1) / P) uploadedParts (fun p _ => hok p)]
    simp only [putPartCalls_map_putPart, List.map_map]
    have hcomp : (Prod.fst ∘ fun p => ((p : Nat), fileChunk file P p)) = id := rfl
    rw [hcomp, List.map_id]

/-- Witness for C4: resuming a 3-byte file (1-byte parts) with part 3
already acknowledged uploads exactly parts 1 and 2. -/
theorem resume_upload_skips_acked_witness :
    (putPartCalls (resume_upload allOkBackend [7, 8, 9] "k" "uid-1"
        [Part.mk 3 "old-3"] 1).1).map Prod.fst = [1, 2] := by
  have h := (resume_upload_skips_acked allOkBackend [7, 8, 9] "k" "uid-1"
    [Part.mk 3 "old-3"] 1 (by decide)).2 (fun p => rfl)
  rw [h]
  decide

/-! ## Claim C5 -/

/-- Counterexample to C5 as stated: resuming a 3-part file with part 3
already acknowledged makes its single `complete_multipart_upload` call with
parts in order `[3, 1, 2]` — previously-acked parts first, newly uploaded
parts appended after them — which is not sorted ascending by part number. -/
theorem resume_upload_complete_unsorted_cex :
    (completeCalls (resume_upload allOkBackend [7, 8, 9] "k" "uid-1"
        [Part.mk 3 "old-3"] 1).1).map (fun l => l.map Part.partNumber) = [[3, 1, 2]] ∧
    ¬ List.Sorted (fun a b => a ≤ b) [3, 1, 2] := by
  exact ⟨by decide, by decide⟩

/-- **C5 (amended).** `resume_upload` merges `previously_acked_parts` with
the newly uploaded parts by list concatenation — the acked parts first, in
the caller-given order, then the new parts ascending — applies **no sort**,
and makes exactly one `complete_multipart_upload` call with that
concatenated list. -/
theorem resume_upload_complete_merged
    (B : Backend) (file : List Nat) (key uid : String)
    (uploadedParts : List Part) (P : Nat) (hP : 1 ≤ P)
    (hok : ∀ p, B.putPartFault p 0 = false) :
    completeCalls (resume_upload B file key uid uploadedParts P).1 =
      [uploadedParts ++ resumeOkParts B (uploadedParts.map Part.partNumber)
        (List.range' 1 ((file.length + P - 1) / P))] := by
  have hall := resumeParts_all_ok B uid (uploadedParts.map Part.partNumber) P file
    ((file.length + P - 1) / P) uploadedParts (fun p _ => hok p)
  rw [resume_upload, hall]
  cases hcf : B.completeFault
  · simp [hcf, completeCalls_append, completeCalls, List.filterMap_cons]
  · simp [hcf, completeCalls_append, completeCalls, List.filterMap_cons]

/-- Witness for the amended C5. -/
theorem resume_upload_complete_merged_witness :
    completeCalls (resume_upload allOkBackend [7, 8, 9] "k2" "uid-1"
        [Part.mk 3 "old-3"] 1).1 =
      [[Part.mk 3 "old-3", Part.mk 1 "etag-1", Part.mk 2 "etag-2"]] := by
  have h := resume_upload_complete_merged allOkBackend [7, 8, 9] "k2" "uid-1"
    [Part.mk 3 "old-3"] 1 (by decide) (fun p => rfl)
  rw [h]
  decide

/-! ## Claim C6 -/

/-- Counterexample to C6 as stated: completion is attempted with the
duplicated part list `[2, 2, 1]` (a duplicate and a gap in `1..N`), yet no
local `IncompleteParts`-style failure occurs — the
`complete_multipart_upload` call reaches the backend carrying that exact
list and the operation returns the backend's success result. -/
theorem resume_upload_no_local_validation_cex :
    completeCalls (resume_upload allOkBackend [5] "k" "uid-1"
        [Part.mk 2 "dup", Part.mk 2 "dup"] 1).1 =
      [[Part.mk 2 "dup", Part.mk 2 "dup", Part.mk 1 "etag-1"]] ∧
    ¬ ([2, 2, 1] : List Nat).Nodup ∧
    (resume_upload allOkBackend [5] "k" "uid-1"
        [Part.mk 2 "dup", Part.mk 2 "dup"] 1).2 =
      .ok (CompleteResult.mk "s3://bucket/key" "final-etag") := by
  exact ⟨by decide, by decide, rfl⟩

/-- **C6 (amended).** No local contiguity/duplicate validation of the parts
list is performed before completion: whenever the part loop finishes, the
merged parts list — whatever its part numbers — is submitted to the
backend in exactly one `complete_multipart_upload` call, and the outcome is
the backend's own verdict (success, or the backend's `ClientError`); no
locally raised `IncompleteParts` error exists in the code. -/
theorem resume_upload_complete_reaches_backend
    (B : Backend) (file : List Nat) (key uid : String)
    (uploadedParts : List Part) (P : Nat) (hP : 1 ≤ P)
    (hok : ∀ p, B.putPartFault p 0 = false) :
    (completeCalls (resume_upload B file key uid uploadedParts P).1).length = 1 ∧
    ((resume_upload B file key uid uploadedParts P).2 =
        .ok (CompleteResult.mk B.completeLocation B.completeEtag) ∨
      (resume_upload B file key uid uploadedParts P).2 = .error .clientError) := by
  have hall := resumeParts_all_ok B uid (uploadedParts.map Part.partNumber) P file
    ((file.length + P - 1) / P) uploadedParts (fun p _ => hok p)
  rw [resume_upload, hall]
  cases hcf : B.completeFault
  · constructor
    · simp [hcf, completeCalls_append, completeCalls, List.filterMap_cons]
    · left
      simp [hcf]
  · constructor
    · simp [hcf, completeCalls_append, completeCalls, List.filterMap_cons]
    · right
      simp [hcf]

/-- Witness for the amended C6: the duplicated-parts resume still produces
exactly one backend complete call. -/
theorem resume_upload_complete_reaches_backend_witness :
    (completeCalls (resume_upload allOkBackend [5] "k3" "uid-1"
        [Part.mk 2 "dup", Part.mk 2 "dup"] 1).1).length = 1 := by
  exact (resume_upload_complete_reaches_backend allOkBackend [5] "k3" "uid-1"
    [Part.mk 2 "dup", Part.mk 2 "dup"] 1 (by decide) (fun p => rfl)).1

/-! ## Claim C10 -/

/-- **C10.** Unlike `upload_large_file`, `resume_upload` performs no
per-part retry, no abort-on-failure cleanup, and no status-record update:
its trace never contains an abort call or a status write; each part number
is attempted at most once; when the first non-acked part whose backend
call faults is reached, the raw `ClientError` propagates after exactly one
`put_part` call for that part; and a `ClientError` from
`complete_multipart_upload` likewise propagates with the session token left
open (no abort). -/
theorem resume_upload_no_retry_no_abort
    (B : Backend) (file : List Nat) (key uid : String)
    (uploadedParts : List Part) (P : Nat) (hP : 1 ≤ P) :
    abortCalls (resume_upload B file key uid uploadedParts P).1 = [] ∧
    statusWrites (resume_upload B file key uid uploadedParts P).1 = [] ∧
    (∀ p, (putPartCalls (resume_upload B file key uid uploadedParts P).1).countP
      (fun c => c.1 == p) ≤ 1) ∧
    (∀ q, q ∈ List.range' 1 ((file.length + P - 1) / P) →
      q ∉ uploadedParts.map Part.partNumber →
      B.putPartFault q 0 = true →
      (∀ p, p < q → p ∉ uploadedParts.map Part.partNumber →
        B.putPartFault p 0 = false) →
      (resume_upload B file key uid uploadedParts P).2 = .error .clientError ∧
      (putPartCalls (resume_upload B file key uid uploadedParts P).1).countP
        (fun c => c.1 == q) = 1) ∧
    ((∀ p, B.putPartFault p 0 = false) → B.completeFault = true →
      (resume_upload B file key uid uploadedParts P).2 = .error .clientError) := by
  obtain ⟨tail, htr, htail⟩ := resume_upload_trace B file key uid uploadedParts P
  have htailcalls : putPartCalls tail = [] := by
    rw [putPartCalls, List.filterMap_eq_nil_iff]
    intro e he
    obtain ⟨ps, rfl⟩ := htail e he
    rfl
  refine ⟨?_, ?_, ?_, ?_, ?_⟩
  · rw [htr, abortCalls_append]
    have h1 : abortCalls (resumeParts B uid (uploadedParts.map Part.partNumber) P
        (List.range' 1 ((file.length + P - 1) / P)) file uploadedParts).1 = [] := by
      rw [abortCalls, List.filterMap_eq_nil_iff]
      intro e he
      obtain ⟨q, b, rfl⟩ := resumeParts_events B uid _ P _ _ _ e he
      rfl
    have h2 : abortCalls tail = [] := by
      rw [abortCalls, List.filterMap_eq_nil_iff]
      intro e he
      obtain ⟨ps, rfl⟩ := htail e he
      rfl
    rw [h1, h2]
    rfl
  · rw [htr, statusWrites_append]
    have h1 : statusWrites (resumeParts B uid (uploadedParts.map Part.partNumber) P
        (List.range' 1 ((file.length + P - 1) / P)) file uploadedParts).1 = [] := by
      rw [statusWrites, List.filterMap_eq_nil_iff]
      intro e he
      obtain ⟨q, b, rfl⟩ := resumeParts_events B uid _ P _ _ _ e he
      rfl
    have h2 : statusWrites tail = [] := by
      rw [statusWrites, List.filterMap_eq_nil_iff]
      intro e he
      obtain ⟨ps, rfl⟩ := htail e he
      rfl
    rw [h1, h2]
    rfl
  · intro p
    rw [htr, putPartCalls_append, htailcalls, List.append_nil]
    have hsub := resumeParts_calls_sublist B uid (uploadedParts.map Part.partNumber) P
      (List.range' 1 ((file.length + P - 1) / P)) file uploadedParts
    have hmap : (putPartCalls (resumeParts B uid (uploadedParts.map Part.partNumber) P
          (List.range' 1 ((file.length + P - 1) / P)) file uploadedParts).1).countP
        (fun c => c.1 == p) =
        ((putPartCalls (resumeParts B uid (uploadedParts.map Part.partNumber) P
          (List.range' 1 ((file.length + P - 1) / P)) file uploadedParts).1).map
          Prod.fst).countP (fun x => x == p) := by
      rw [List.countP_map]
      rfl
    rw [hmap]
    calc ((putPartCalls _).map Prod.fst).countP (fun x => x == p)
        ≤ (List.range' 1 ((file.length + P - 1) / P)).countP (fun x => x == p) :=
          hsub.countP_le _
      _ = (List.range' 1 ((file.length + P - 1) / P)).count p := rfl
      _ ≤ 1 := List.nodup_iff_count_le_one.mp (List.nodup_range' 1 _) p
  · intro q hq hnot hfail hprev
    have hq1 := List.mem_range'_1.mp hq
    have hcontains : (uploadedParts.map Part.partNumber).contains q = false := by
      simpa using hnot
    have hpre : ∀ p ∈ List.range' 1 (q - 1),
        (uploadedParts.map Part.partNumber).contains p = false →
        B.putPartFault p 0 = false := by
      intro p hp hpc
      have hlt := List.mem_range'_1.mp hp
      exact hprev p (by omega) (by simpa using hpc)
    have hsplit := range'_split q ((file.length + P - 1) / P) hq1.1 (by omega)
    have hstep : resumeParts B uid (uploadedParts.map Part.partNumber) P
        (q :: List.range' (q + 1) ((file.length + P - 1) / P - q))
        (file.drop ((List.range' 1 (q - 1)).length * P))
        (uploadedParts ++ resumeOkParts B (uploadedParts.map Part.partNumber)
          (List.range' 1 (q - 1))) =
        ([Event.putPart uid q ((file.drop ((List.range' 1 (q - 1)).length * P)).take P)],
          .error .clientError) := by
      rw [resumeParts, hcontains]
      simp [hfail]
    have hfull : resumeParts B uid (uploadedParts.map Part.partNumber) P
        (List.range' 1 ((file.length + P - 1) / P)) file uploadedParts =
        (resumeOkEvents uid (uploadedParts.map Part.partNumber) P
            (List.range' 1 (q - 1)) file ++
          [Event.putPart uid q ((file.drop ((List.range' 1 (q - 1)).length * P)).take P)],
          .error .clientError) := by
      rw [hsplit]
      rw [resumeParts_prefix_run B uid (uploadedParts.map Part.partNumber) P
        (List.range' 1 (q - 1)) (q :: List.range' (q + 1) ((file.length + P - 1) / P - q))
        file uploadedParts hpre]
      rw [hstep]
    constructor
    · rw [resume_upload, hfull]
    · rw [resume_upload, hfull]
      simp only []
      have hpre0 : putPartCalls (resumeOkEvents uid (uploadedParts.map Part.partNumber) P
          (List.range' 1 (q - 1)) file) =
          ((List.range' 1 (q - 1)).filter
            (fun p => !(uploadedParts.map Part.partNumber).contains p)).map
            (fun p => (p, fileChunk file P p)) := by
        have hev := resumeOkEvents_aligned uid (uploadedParts.map Part.partNumber) P file
          (q - 1) 0
        simp only [Nat.zero_mul, List.drop_zero] at hev
        rw [hev, putPartCalls_map_putPart]
      rw [putPartCalls_append, hpre0]
      rw [List.countP_append]
      have hzero : (((List.range' 1 (q - 1)).filter
          (fun p => !(uploadedParts.map Part.partNumber).contains p)).map
          (fun p => ((p : Nat), fileChunk file P p))).countP (fun c => c.1 == q) = 0 := by
        rw [List.countP_eq_zero]
        intro c hc
        obtain ⟨p, hp, rfl⟩ := List.mem_map.mp hc
        have hplt := List.mem_range'_1.mp (List.mem_of_mem_filter hp)
        simp only [beq_iff_eq]
        omega
      rw [hzero]
      simp [putPartCalls, List.filterMap_cons]
  · intro hok hcf
    have hall := resumeParts_all_ok B uid (uploadedParts.map Part.partNumber) P file
      ((file.length + P - 1) / P) uploadedParts (fun p _ => hok p)
    rw [resume_upload, hall]
    simp [hcf]

/-- Witness for C10: resuming with a backend whose part 2 always faults
(part 3 acked, parts 1–2 missing) raises the raw `ClientError` after one
call for part 2, with no abort and no status write. -/
theorem resume_upload_no_retry_no_abort_witness :
    (resume_upload deadPartBackend [7, 8, 9] "k" "uid-1"
        [Part.mk 3 "old-3"] 1).2 = .error .clientError ∧
    abortCalls (resume_upload deadPartBackend [7, 8, 9] "k" "uid-1"
        [Part.mk 3 "old-3"] 1).1 = [] := by
  have h := resume_upload_no_retry_no_abort deadPartBackend [7, 8, 9] "k" "uid-1"
    [Part.mk 3 "old-3"] 1 (by decide)
  refine ⟨?_, h.1⟩
  exact (h.2.2.2.1 2 (by decide) (by decide) (by decide)
    (by intro p hp hnp; interval_cases p <;> simp_all <;> rfl)).1

/-! ## Claim C9 -/

/-- **C9.** The status lookup for a job id whose record was never created
is identical — same status code, same body — to the lookup for a job id
whose record was written but whose retention window has elapsed: both
return `404` with the `Job not found` error body, with no distinguishing
signal. -/
theorem get_upload_status_expired_eq_never
    (jobId : String) (now : Nat) (s1 : StatusStore) (ttl t : Nat) (v : String)
    (h1 : ∀ e ∈ s1.entries, e.1 ≠ "job:" ++ jobId)
    (hexp : t + ttl ≤ now) :
    get_upload_status (setex s1 ("job:" ++ jobId) ttl t v) now jobId =
      get_upload_status s1 now jobId ∧
    get_upload_status s1 now jobId = (404, .errorBody "Job not found") := by
  have hg1 : redisGet s1 now ("job:" ++ jobId) = none := by
    rw [redisGet]
    have hfind : s1.entries.find? (fun e => e.1 == "job:" ++ jobId) = none := by
      rw [List.find?_eq_none]
      intro e he
      simpa using h1 e he
    rw [hfind]
  have hg2 : redisGet (setex s1 ("job:" ++ jobId) ttl t v) now ("job:" ++ jobId)
      = none := by
    rw [redisGet, setex]
    have hfind : List.find? (fun e => e.1 == "job:" ++ jobId)
        (("job:" ++ jobId, v, t + ttl) :: s1.entries) =
        some ("job:" ++ jobId, v, t + ttl) :=
      List.find?_cons_of_pos s1.entries (by simp)
    rw [hfind]
    simp only []
    rw [if_neg (by omega)]
  constructor
  · rw [get_upload_status, get_upload_status, hg1, hg2]
  · rw [get_upload_status, hg1]

/-- Witness for C9: empty store vs. a store whose `job:j` record was
written at time 0 with a 5-second ttl, both read at time 10. -/
theorem get_upload_status_expired_eq_never_witness :
    get_upload_status (setex (StatusStore.mk []) ("job:" ++ "j") 5 0 "rec") 10 "j" =
      get_upload_status (StatusStore.mk []) 10 "j" ∧
    get_upload_status (StatusStore.mk []) 10 "j" = (404, .errorBody "Job not found") := by
  exact get_upload_status_expired_eq_never "j" 10 (StatusStore.mk []) 5 0 "rec"
    (by simp) (by decide)

/-! ## Worker lemmas -/

theorem abortCall_fst (af : Bool) (uid : String) :
    (abortCall af uid).1 = [Event.abortMultipart uid] := rfl

theorem failCleanup_fst (rf : Bool) (abortEvs : List Event) (jobId : String) (e : Err) :
    (failCleanup rf abortEvs jobId e).1 =
      abortEvs ++ [Event.statusWrite ⟨jobId, .failed, 0, some (.errorMeta (errStr e))⟩] := by
  cases rf <;> rfl

theorem workerParts_status (B : Backend) (uid jobId : String) (P S : Nat) :
    ∀ n rem, rem.length ≤ n → ∀ k parts bytes w,
    w ∈ statusWrites (workerParts B uid jobId P S rem k parts bytes).1 →
    w.status = JobStatus.processing := by
  intro n
  induction n with
  | zero =>
    intro rem hrem k parts bytes w hw
    have hnil : rem = [] := List.length_eq_zero.mp (Nat.le_zero.mp hrem)
    subst hnil
    rw [workerParts] at hw
    simp [statusWrites] at hw
  | succ n ih =>
    intro rem hrem k parts bytes w hw
    rw [workerParts] at hw
    split at hw
    · simp [statusWrites] at hw
    · next hne =>
      split at hw
      · simp [statusWrites] at hw
      · simp only [statusWrites, List.filterMap_cons] at hw
        rcases List.mem_cons.mp hw with rfl | hw
        · rfl
        · have hlen : (rem.drop P).length ≤ n := by
            have h' : ¬P = 0 ∧ ¬rem = [] := by simpa using hne
            have := List.length_pos.mpr h'.2
            have h0 : P ≠ 0 := h'.1
            simp only [List.length_drop]
            omega
          exact ih (rem.drop P) hlen (k + 1) _ _ w hw

theorem workerParts_ok (B : Backend) (uid jobId : String) (P S : Nat)
    (hok : ∀ p, B.putPartFault p 0 = false) :
    ∀ n rem, rem.length ≤ n → ∀ k parts bytes,
    ∃ ps, (workerParts B uid jobId P S rem k parts bytes).2 = .ok ps := by
  intro n
  induction n with
  | zero =>
    intro rem hrem k parts bytes
    have hnil : rem = [] := List.length_eq_zero.mp (Nat.le_zero.mp hrem)
    subst hnil
    rw [workerParts]
    simp
  | succ n ih =>
    intro rem hrem k parts bytes
    rw [workerParts]
    split
    · exact ⟨parts, rfl⟩
    · next hne =>
      rw [hok k]
      simp only [Bool.false_eq_true, if_false]
      have hlen : (rem.drop P).length ≤ n := by
        have h' : ¬P = 0 ∧ ¬rem = [] := by simpa using hne
        have := List.length_pos.mpr h'.2
        have h0 : P ≠ 0 := h'.1
        simp only [List.length_drop]
        omega
      exact ih (rem.drop P) hlen (k + 1) _ _

/-! ## Claim C8 -/

/-- **C8.** Within one execution of the background worker, the sequence of
status values written to the job's record is `processing*` followed by at
most one terminal value: whenever the list of status writes decomposes as
`l₁ ++ w :: l₂` with `w` a `completed` or `failed` write, `l₂` is empty —
no write ever follows a terminal write. -/
theorem upload_to_s3_background_status_monotonic
    (B : Backend) (af rf : Bool) (file : List Nat) (key jobId : String) (P : Nat) :
    ∀ l₁ w l₂,
    statusWrites (upload_to_s3_background B af rf file key jobId P).1 = l₁ ++ w :: l₂ →
    w.status = JobStatus.completed ∨ w.status = JobStatus.failed →
    l₂ = [] := by
  have hshape : ∃ ws t,
      statusWrites (upload_to_s3_background B af rf file key jobId P).1 = ws ++ [t] ∧
      ∀ w ∈ ws, w.status = JobStatus.processing := by
    simp only [upload_to_s3_background]
    cases hc : B.createFault with
    | true =>
      refine ⟨[⟨jobId, .processing, 0, none⟩],
        ⟨jobId, .failed, 0, some (.errorMeta (errStr .clientError))⟩, ?_, ?_⟩
      · simp [failCleanup_fst, statusWrites, List.filterMap_cons]
      · intro w hw
        simp only [List.mem_singleton] at hw
        subst hw
        rfl
    | false =>
      rcases hw : (workerParts B B.uploadId jobId P file.length file 1 [] 0).2
        with e | parts
      · refine ⟨⟨jobId, .processing, 0, none⟩ ::
          statusWrites (workerParts B B.uploadId jobId P file.length file 1 [] 0).1,
          ⟨jobId, .failed, 0, some (.errorMeta (errStr e))⟩, ?_, ?_⟩
        · simp [failCleanup_fst, abortCall_fst, statusWrites_append, statusWrites,
            List.filterMap_cons, List.filterMap_append]
        · intro w hw'
          rcases List.mem_cons.mp hw' with rfl | hw'
          · rfl
          · exact workerParts_status B B.uploadId jobId P file.length file.length
              file (le_refl _) 1 [] 0 w hw'
      · cases hcf : B.completeFault with
        | true =>
          refine ⟨⟨jobId, .processing, 0, none⟩ ::
            statusWrites (workerParts B B.uploadId jobId P file.length file 1 [] 0).1,
            ⟨jobId, .failed, 0, some (.errorMeta (errStr .clientError))⟩, ?_, ?_⟩
          · simp [failCleanup_fst, abortCall_fst, statusWrites_append, statusWrites,
              List.filterMap_cons, List.filterMap_append]
          · intro w hw'
            rcases List.mem_cons.mp hw' with rfl | hw'
            · rfl
            · exact workerParts_status B B.uploadId jobId P file.length file.length
                file (le_refl _) 1 [] 0 w hw'
        | false =>
          cases rf with
          | true =>
            refine ⟨⟨jobId, .processing, 0, none⟩ ::
              statusWrites (workerParts B B.uploadId jobId P file.length file 1 [] 0).1,
              ⟨jobId, .failed, 0, some (.errorMeta (errStr .osError))⟩, ?_, ?_⟩
            · simp [failCleanup_fst, abortCall_fst, statusWrites_append, statusWrites,
                List.filterMap_cons, List.filterMap_append]
            · intro w hw'
              rcases List.mem_cons.mp hw' with rfl | hw'
              · rfl
              · exact workerParts_status B B.uploadId jobId P file.length file.length
                  file (le_refl _) 1 [] 0 w hw'
          | false =>
            refine ⟨⟨jobId, .processing, 0, none⟩ ::
              statusWrites (workerParts B B.uploadId jobId P file.length file 1 [] 0).1,
              ⟨jobId, .completed, 100,
                some (.resultMeta B.completeLocation B.completeEtag)⟩, ?_, ?_⟩
            · simp [statusWrites_append, statusWrites, List.filterMap_cons,
                List.filterMap_append]
            · intro w hw'
              rcases List.mem_cons.mp hw' with rfl | hw'
              · rfl
              · exact workerParts_status B B.uploadId jobId P file.length file.length
                  file (le_refl _) 1 [] 0 w hw'
  obtain ⟨ws, t, hsw, hws⟩ := hshape
  intro l₁ w l₂ heq hterm
  by_contra hne
  obtain ⟨l₂', t', rfl⟩ := (List.eq_nil_or_concat l₂).resolve_left hne
  rw [hsw] at heq
  have hlen : [t].length = [t'].length := rfl
  have heq' : ws ++ [t] = (l₁ ++ w :: l₂') ++ [t'] := by
    rw [heq]
    simp
  obtain ⟨hws', _⟩ := List.append_inj' heq' rfl
  have hwmem : w ∈ ws := by
    rw [hws']
    simp
  have := hws w hwmem
  rcases hterm with h | h <;> rw [this] at h <;> exact JobStatus.noConfusion h

/-- Witness for C8: a successful 1-part run writes
`processing, processing, completed` — the terminal write is last. -/
theorem upload_to_s3_background_status_monotonic_witness :
    statusWrites (upload_to_s3_background allOkBackend false false [1] "k" "job" 1).1 =
      [⟨"job", .processing, 0, none⟩,
       ⟨"job", .processing, ((1 : ℚ) / (1 : ℚ)) * 100, none⟩,
       ⟨"job", .completed, 100, some (.resultMeta "s3://bucket/key" "final-etag")⟩] ∧
    [] = ([] : List StatusWrite) := by
  refine ⟨?_, ?_⟩
  · simp [upload_to_s3_background, workerParts, allOkBackend, statusWrites,
      List.filterMap_cons]
  · exact upload_to_s3_background_status_monotonic allOkBackend false false [1] "k"
      "job" 1
      [⟨"job", .processing, 0, none⟩, ⟨"job", .processing, ((1 : ℚ) / (1 : ℚ)) * 100, none⟩]
      ⟨"job", .completed, 100, some (.resultMeta "s3://bucket/key" "final-etag")⟩ []
      (by simp [upload_to_s3_background, workerParts, allOkBackend, statusWrites,
        List.filterMap_cons])
      (Or.inl rfl)

/-! ## Claim C7 -/

/-- Counterexample to C7 as stated: with every backend call succeeding and
the temp-file deletion failing, the blob-store complete call has succeeded,
yet the job's recorded status sequence is
`processing, processing, failed` — the record is left at `failed`, not
`completed`, and the deletion failure surfaces to the caller as the raised
`OSError`. -/
theorem worker_cleanup_failure_cex :
    (statusWrites (upload_to_s3_background allOkBackend false true [1, 2]
        "k" "job" 2).1).map StatusWrite.status =
      [.processing, .processing, .failed] ∧
    (upload_to_s3_background allOkBackend false true [1, 2] "k" "job" 2).2 =
      .error .osError := by
  constructor
  · simp [upload_to_s3_background, workerParts, allOkBackend, statusWrites,
      List.filterMap_cons, failCleanup_fst, abortCall_fst, List.filterMap_append]
  · simp [upload_to_s3_background, workerParts, allOkBackend, failCleanup, abortCall]

/-- **C7 (amended).** In the background worker, `os.remove` runs *before*
the `completed` status write; if the deletion fails after a successful
complete call, the exception enters the general failure handler: the job's
status record is overwritten to `failed` (carrying the OS error text), the
`completed` status is never written, and the error propagates to the
caller. -/
theorem worker_remove_failure_fails_job
    (B : Backend) (af : Bool) (file : List Nat) (key jobId : String) (P : Nat)
    (hcreate : B.createFault = false)
    (hok : ∀ p, B.putPartFault p 0 = false)
    (hcf : B.completeFault = false) :
    (upload_to_s3_background B af true file key jobId P).2 = .error .osError ∧
    (statusWrites (upload_to_s3_background B af true file key jobId P).1).getLast? =
      some ⟨jobId, .failed, 0, some (.errorMeta (errStr .osError))⟩ ∧
    ∀ w ∈ statusWrites (upload_to_s3_background B af true file key jobId P).1,
      w.status ≠ JobStatus.completed := by
  obtain ⟨ps, hps⟩ := workerParts_ok B B.uploadId jobId P file.length hok file.length
    file (le_refl _) 1 [] 0
  refine ⟨?_, ?_, ?_⟩
  · simp only [upload_to_s3_background, hcreate, Bool.false_eq_true, if_false]
    rw [hps]
    simp [hcf, failCleanup]
  · simp only [upload_to_s3_background, hcreate, Bool.false_eq_true, if_false]
    rw [hps]
    simp only [hcf, Bool.false_eq_true, if_false, if_true]
    simp only [failCleanup_fst, abortCall_fst]
    simp only [statusWrites, List.filterMap_cons, List.filterMap_append,
      List.filterMap_nil]
    exact List.getLast?_concat _
  · intro w hw
    simp only [upload_to_s3_background, hcreate, Bool.false_eq_true, if_false] at hw
    rw [hps] at hw
    simp only [hcf, Bool.false_eq_true, if_false, if_true] at hw
    simp only [failCleanup_fst, abortCall_fst] at hw
    simp only [statusWrites, List.filterMap_cons, List.filterMap_append,
      List.filterMap_nil] at hw
    simp only [List.mem_cons, List.mem_append, List.mem_singleton] at hw
    rcases hw with (rfl | hw) | hw
    · simp
    · have := workerParts_status B B.uploadId jobId P file.length file.length file
        (le_refl _) 1 [] 0 w (by simpa [statusWrites] using hw)
      simp [this]
    · rcases hw with h | rfl | h
      · simp at h
      · simp
      · simp at h

/-- Witness for the amended C7. -/
theorem worker_remove_failure_fails_job_witness :
    (upload_to_s3_background allOkBackend false true [1, 2] "k4" "job" 2).2 =
      .error .osError := by
  exact (worker_remove_failure_fails_job allOkBackend false [1, 2] "k4" "job" 2
    (by decide) (fun p => rfl) (by decide)).1

theorem workerParts_events (B : Backend) (uid jobId : String) (P S : Nat) :
    ∀ n rem, rem.length ≤ n → ∀ k parts bytes e,
    e ∈ (workerParts B uid jobId P S rem k parts bytes).1 →
    (∃ q b, e = Event.putPart uid q b) ∨ (∃ w, e = Event.statusWrite w) := by
  intro n
  induction n with
  | zero =>
    intro rem hrem k parts bytes e he
    have hnil : rem = [] := List.length_eq_zero.mp (Nat.le_zero.mp hrem)
    subst hnil
    rw [workerParts] at he
    simp at he
  | succ n ih =>
    intro rem hrem k parts bytes e he
    rw [workerParts] at he
    split at he
    · simp at he
    · next hne =>
      split at he
      · simp only [List.mem_singleton] at he
        exact Or.inl ⟨k, rem.take P, he⟩
      · simp only [List.mem_cons] at he
        rcases he with rfl | rfl | he
        · exact Or.inl ⟨k, rem.take P, rfl⟩
        · exact Or.inr ⟨_, rfl⟩
        · have hlen : (rem.drop P).length ≤ n := by
            have h' : ¬P = 0 ∧ ¬rem = [] := by simpa using hne
            have := List.length_pos.mpr h'.2
            have h0 : P ≠ 0 := h'.1
            simp only [List.length_drop]
            omega
          exact ih (rem.drop P) hlen (k + 1) _ _ e he

/-! ## Claim C3 -/

/-- **C3.** Whenever `upload_large_file` fails after the multipart session
was opened, exactly one abort call carrying the session's upload id is
issued before the primary exception propagates, and the abort call's own
outcome never changes the propagated error; in the background worker (with
the temp-file deletion succeeding), any failure likewise ends with exactly
one abort call and a `failed` status write carrying the primary error's
text in its metadata. -/
theorem upload_abort_exactly_once
    (B : Backend) (af : Bool) (file : List Nat) (key : String) (P M : Nat)
    (B₂ : Backend) (af₂ : Bool) (file₂ : List Nat) (key₂ jobId₂ : String) (P₂ : Nat)
    (e : Err)
    (hcreate : B.createFault = false)
    (he : (upload_large_file B af file key P M).2 = .error e)
    (hc₂ : B₂.createFault = false) :
    abortCalls (upload_large_file B af file key P M).1 = [B.uploadId] ∧
    (∀ af', (upload_large_file B af' file key P M).2 = .error e) ∧
    (∀ e₂, (upload_to_s3_background B₂ af₂ false file₂ key₂ jobId₂ P₂).2 = .error e₂ →
      abortCalls (upload_to_s3_background B₂ af₂ false file₂ key₂ jobId₂ P₂).1 =
        [B₂.uploadId] ∧
      Event.statusWrite ⟨jobId₂, .failed, 0, some (.errorMeta (errStr e₂))⟩ ∈
        (upload_to_s3_background B₂ af₂ false file₂ key₂ jobId₂ P₂).1) := by
  have hupev : abortCalls (uploadParts B B.uploadId P M
      (List.range' 1 ((file.length + P - 1) / P)) file []).1 = [] := by
    apply abortCalls_of_putParts
    intro ev hev
    obtain ⟨q, b, rfl⟩ := uploadParts_events B B.uploadId P M _ _ _ ev hev
    exact ⟨B.uploadId, q, b, rfl⟩
  have hindep : ∀ af', (upload_large_file B af' file key P M).2 =
      (upload_large_file B af file key P M).2 := by
    intro af'
    simp only [upload_large_file, hcreate, Bool.false_eq_true, if_false]
    rcases hw : (uploadParts B B.uploadId P M
        (List.range' 1 ((file.length + P - 1) / P)) file []).2 with e' | parts
    · rfl
    · cases hcf : B.completeFault <;> rfl
  refine ⟨?_, fun af' => (hindep af').trans he, ?_⟩
  · simp only [upload_large_file, hcreate, Bool.false_eq_true, if_false] at he ⊢
    rcases hw : (uploadParts B B.uploadId P M
        (List.range' 1 ((file.length + P - 1) / P)) file []).2 with e' | parts
    · simp only [abortCalls, List.filterMap_cons, List.filterMap_append]
      simp only [abortCalls] at hupev
      rw [hupev, abortCall_fst]
      rfl
    · cases hcf : B.completeFault with
      | true =>
        simp only [abortCalls] at hupev
        simp [abortCalls, List.filterMap_cons, List.filterMap_append, abortCall_fst,
          hupev]
      | false =>
        rw [hw] at he
        simp [hcf] at he
  · intro e₂ he₂
    have hwab : abortCalls (workerParts B₂ B₂.uploadId jobId₂ P₂ file₂.length
        file₂ 1 [] 0).1 = [] := by
      rw [abortCalls, List.filterMap_eq_nil_iff]
      intro ev hev
      rcases workerParts_events B₂ B₂.uploadId jobId₂ P₂ file₂.length file₂.length
          file₂ (le_refl _) 1 [] 0 ev hev with ⟨q, b, rfl⟩ | ⟨w', rfl⟩
      · rfl
      · rfl
    simp only [upload_to_s3_background, hc₂, Bool.false_eq_true, if_false] at he₂ ⊢
    rcases hw₂ : (workerParts B₂ B₂.uploadId jobId₂ P₂ file₂.length file₂ 1 [] 0).2
      with e' | parts
    · rw [hw₂] at he₂
      have he' : e' = e₂ := by simpa [failCleanup] using he₂
      subst he'
      constructor
      · simp only [abortCalls] at hwab
        simp [abortCalls, List.filterMap_cons, List.filterMap_append, abortCall_fst,
          failCleanup_fst, hwab]
      · simp [failCleanup_fst, abortCall_fst]
    · rw [hw₂] at he₂
      cases hcf₂ : B₂.completeFault with
      | true =>
        have he' : Err.clientError = e₂ := by simpa [hcf₂, failCleanup] using he₂
        subst he'
        constructor
        · simp only [abortCalls] at hwab
          simp [abortCalls, List.filterMap_cons, List.filterMap_append, abortCall_fst,
            failCleanup_fst, hwab]
        · simp [failCleanup_fst, abortCall_fst]
      | false =>
        simp [hcf₂] at he₂

/-- Witness for C3: with part 2 permanently failing, `upload_large_file`
issues exactly one abort call carrying the upload id, and the worker
records the `failed` status carrying the error text. -/
theorem upload_abort_exactly_once_witness :
    abortCalls (upload_large_file deadPartBackend false [1, 2, 3] "k" 1 3).1 =
      ["uid-1"] ∧
    Event.statusWrite ⟨"job", .failed, 0, some (.errorMeta (errStr .clientError))⟩ ∈
      (upload_to_s3_background deadPartBackend false false [1, 2, 3] "k" "job" 1).1 := by
  have h := upload_abort_exactly_once deadPartBackend false [1, 2, 3] "k" 1 3
    deadPartBackend false [1, 2, 3] "k" "job" 1 (.partFailed 2 3)
    (by decide) (by rfl) (by decide)
  exact ⟨h.1, (h.2.2 .clientError (by simp [upload_to_s3_background, workerParts,
    deadPartBackend, allOkBackend, failCleanup])).2⟩

/-! ## Lemmas for Claim C2 -/

theorem countP_replicate {α : Type} (n : Nat) (a : α) (pr : α → Bool) :
    (List.replicate n a).countP pr = if pr a then n else 0 := by
  induction n with
  | zero => simp
  | succ n ih =>
    rw [List.replicate_succ, List.countP_cons, ih]
    cases h : pr a <;> simp [h]

theorem upload_large_file_trace (B : Backend) (af : Bool) (file : List Nat)
    (key : String) (P M : Nat) (hcreate : B.createFault = false) :
    ∃ tail, (upload_large_file B af file key P M).1 =
      Event.createMultipart key ::
        (uploadParts B B.uploadId P M (List.range' 1 ((file.length + P - 1) / P))
          file []).1 ++ tail ∧
      putPartCalls tail = [] := by
  simp only [upload_large_file, hcreate, Bool.false_eq_true, if_false]
  rcases hw : (uploadParts B B.uploadId P M
      (List.range' 1 ((file.length + P - 1) / P)) file []).2 with e | parts
  · exact ⟨(abortCall af B.uploadId).1, rfl,
      by simp [abortCall_fst, putPartCalls]⟩
  · cases hcf : B.completeFault with
    | true =>
      exact ⟨Event.completeMultipart B.uploadId parts :: (abortCall af B.uploadId).1,
        rfl, by simp [abortCall_fst, putPartCalls, List.filterMap_cons]⟩
    | false =>
      exact ⟨[Event.completeMultipart B.uploadId parts], rfl,
        by simp [putPartCalls, List.filterMap_cons]⟩

theorem uploadParts_cons_events (B : Backend) (uid : String) (P M p : Nat)
    (ps : List Nat) (rem : List Nat) (parts0 : List Part) :
    ∃ restEvents,
      (uploadParts B uid P M (p :: ps) rem parts0).1 =
        (putPartLoop B uid p (rem.take P) M).1 ++ restEvents ∧
      ∀ c ∈ putPartCalls restEvents, c.1 ∈ ps := by
  rw [uploadParts]
  rcases hr : (putPartLoop B uid p (rem.take P) M).2 with e | oe
  · exact ⟨[], by simp, by simp [putPartCalls]⟩
  · cases oe with
    | none =>
      exact ⟨(uploadParts B uid P M ps (rem.drop P) parts0).1, rfl,
        fun c hc => uploadParts_calls_mem B uid P M ps _ _ c hc⟩
    | some etag =>
      exact ⟨(uploadParts B uid P M ps (rem.drop P)
        (parts0 ++ [Part.mk p etag])).1, rfl,
        fun c hc => uploadParts_calls_mem B uid P M ps _ _ c hc⟩

theorem uploadParts_cons_error (B : Backend) (uid : String) (P M p : Nat)
    (ps : List Nat) (rem : List Nat) (parts0 : List Part) (e : Err)
    (h : (uploadParts B uid P M (p :: ps) rem parts0).2 = .error e) :
    (putPartLoop B uid p (rem.take P) M).2 = .error e ∨
    ∃ p' ∈ ps, e = Err.partFailed p' M := by
  rw [uploadParts] at h
  split at h
  · next e' heq =>
    simp only [Except.error.injEq] at h
    subst h
    exact Or.inl heq
  · exact Or.inr (uploadParts_error B uid P M ps _ _ e h)
  · exact Or.inr (uploadParts_error B uid P M ps _ _ e h)

theorem upload_large_file_result (B : Backend) (af : Bool) (file : List Nat)
    (key : String) (P M : Nat) (hcreate : B.createFault = false) :
    ∀ e, (upload_large_file B af file key P M).2 = .error e →
    e = Err.clientError ∨
    (uploadParts B B.uploadId P M (List.range' 1 ((file.length + P - 1) / P))
      file []).2 = .error e := by
  intro e he
  simp only [upload_large_file, hcreate, Bool.false_eq_true, if_false] at he
  rcases hw : (uploadParts B B.uploadId P M
      (List.range' 1 ((file.length + P - 1) / P)) file []).2 with e0 | parts
  · rw [hw] at he
    simp only [Except.error.injEq] at he
    subst he
    exact Or.inr rfl
  · rw [hw] at he
    cases hcf : B.completeFault with
    | true =>
      simp only [hcf, if_true, Except.error.injEq] at he
      exact Or.inl he.symm
    | false => simp [hcf] at he

/-! ## Claim C2 -/

/-- **C2.** For a part `q` of `upload_large_file` (earlier parts succeeding
immediately, `q` failing its first `f` attempts): every `put_part` call for
`q` resubmits the same bytes (the part's chunk); at most `max_retries`
calls are made for `q`; if `q` fails `f < max_retries` times and then
succeeds, exactly `f + 1` calls are made for `q` and the upload does not
fail with `q`'s retries-exhausted error; and if all `max_retries` attempts
fail, the upload stops — no later part is attempted — and fails with the
error naming part `q` and the attempt count. -/
theorem upload_large_file_retry_per_part
    (B : Backend) (af : Bool) (file : List Nat) (key : String) (P M q f : Nat)
    (hP : 1 ≤ P) (hM : 1 ≤ M)
    (hcreate : B.createFault = false)
    (hq : q ∈ List.range' 1 ((file.length + P - 1) / P))
    (hprev : ∀ p, p < q → B.putPartFault p 0 = false)
    (hfail : ∀ b, b < f → B.putPartFault q b = true) :
    (∀ c ∈ putPartCalls (upload_large_file B af file key P M).1,
      c.1 = q → c.2 = fileChunk file P q) ∧
    (putPartCalls (upload_large_file B af file key P M).1).countP
      (fun c => c.1 == q) ≤ M ∧
    (f < M → B.putPartFault q f = false →
      (putPartCalls (upload_large_file B af file key P M).1).countP
        (fun c => c.1 == q) = f + 1 ∧
      (upload_large_file B af file key P M).2 ≠ .error (.partFailed q M)) ∧
    (f = M →
      (upload_large_file B af file key P M).2 = .error (.partFailed q M) ∧
      ∀ c ∈ putPartCalls (upload_large_file B af file key P M).1, c.1 ≤ q) := by
  have hq1 := List.mem_range'_1.mp hq
  have hpre : ∀ p ∈ List.range' 1 (q - 1), B.putPartFault p 0 = false := by
    intro p hp
    have h := List.mem_range'_1.mp hp
    exact hprev p (by omega)
  have hsplit := range'_split q ((file.length + P - 1) / P) hq1.1 (by omega)
  have hfull : uploadParts B B.uploadId P M
      (List.range' 1 ((file.length + P - 1) / P)) file [] =
      (okEvents B.uploadId P (List.range' 1 (q - 1)) file ++
        (uploadParts B B.uploadId P M
          (q :: List.range' (q + 1) ((file.length + P - 1) / P - q))
          (file.drop ((q - 1) * P)) (okParts B (List.range' 1 (q - 1)))).1,
       (uploadParts B B.uploadId P M
          (q :: List.range' (q + 1) ((file.length + P - 1) / P - q))
          (file.drop ((q - 1) * P)) (okParts B (List.range' 1 (q - 1)))).2) := by
    conv_lhs => rw [hsplit]
    rw [uploadParts_prefix_run B B.uploadId P M hM (List.range' 1 (q - 1))
      (q :: List.range' (q + 1) ((file.length + P - 1) / P - q)) file [] hpre]
    simp only [List.length_range', List.nil_append]
  have hprecalls : putPartCalls (okEvents B.uploadId P (List.range' 1 (q - 1)) file) =
      (List.range' 1 (q - 1)).map (fun p => (p, fileChunk file P p)) := by
    have hev := okEvents_aligned B.uploadId P file (q - 1) 0
    simp only [Nat.zero_mul, List.drop_zero] at hev
    rw [hev, putPartCalls_map_putPart]
  have hprecount : ((List.range' 1 (q - 1)).map
      (fun p => ((p : Nat), fileChunk file P p))).countP (fun c => c.1 == q) = 0 := by
    rw [List.countP_eq_zero]
    intro c hc
    obtain ⟨p, hp, rfl⟩ := List.mem_map.mp hc
    have h := List.mem_range'_1.mp hp
    simp only [beq_iff_eq]
    omega
  obtain ⟨tail, htr, htail⟩ := upload_large_file_trace B af file key P M hcreate
  obtain ⟨restEvents, hrest, hrestmem⟩ := uploadParts_cons_events B B.uploadId P M q
    (List.range' (q + 1) ((file.length + P - 1) / P - q))
    (file.drop ((q - 1) * P)) (okParts B (List.range' 1 (q - 1)))
  have h1 : (uploadParts B B.uploadId P M
      (List.range' 1 ((file.length + P - 1) / P)) file []).1 =
      okEvents B.uploadId P (List.range' 1 (q - 1)) file ++
        ((putPartLoop B B.uploadId q ((file.drop ((q - 1) * P)).take P) M).1 ++
          restEvents) := by
    rw [hfull]
    simp only []
    rw [hrest]
  have hcalls : putPartCalls (upload_large_file B af file key P M).1 =
      (List.range' 1 (q - 1)).map (fun p => (p, fileChunk file P p)) ++
      (putPartCalls (putPartLoop B B.uploadId q
        ((file.drop ((q - 1) * P)).take P) M).1 ++ putPartCalls restEvents) := by
    rw [htr, h1]
    simp only [putPartCalls, List.filterMap_cons, List.filterMap_append]
    simp only [putPartCalls] at hprecalls htail
    rw [hprecalls, htail, List.append_nil]
  have hrestq : (putPartCalls restEvents).countP (fun c => c.1 == q) = 0 := by
    rw [List.countP_eq_zero]
    intro c hc
    have h := List.mem_range'_1.mp (hrestmem c hc)
    simp only [beq_iff_eq]
    omega
  refine ⟨?_, ?_, ?_, ?_⟩
  · intro c hc hcq
    rw [hcalls] at hc
    rcases List.mem_append.mp hc with hc | hc
    · obtain ⟨p, hp, rfl⟩ := List.mem_map.mp hc
      have h := List.mem_range'_1.mp hp
      simp only [] at hcq
      omega
    · rcases List.mem_append.mp hc with hc | hc
      · have h := putPartLoop_calls B B.uploadId q _ M c hc
        rw [h]
        rfl
      · have h := List.mem_range'_1.mp (hrestmem c hc)
        omega
  · rw [hcalls, List.countP_append, List.countP_append, hprecount, hrestq]
    have h2 : (putPartCalls (putPartLoop B B.uploadId q
        ((file.drop ((q - 1) * P)).take P) M).1).countP (fun c => c.1 == q) ≤ M := by
      calc (putPartCalls (putPartLoop B B.uploadId q
            ((file.drop ((q - 1) * P)).take P) M).1).countP (fun c => c.1 == q)
          ≤ (putPartCalls (putPartLoop B B.uploadId q
            ((file.drop ((q - 1) * P)).take P) M).1).length := List.countP_le_length _
        _ ≤ ((putPartLoop B B.uploadId q
            ((file.drop ((q - 1) * P)).take P) M).1).length :=
            List.length_filterMap_le _ _
        _ ≤ M := putPartGo_length B B.uploadId q _ M M 0
    omega
  · intro hf hsucc
    have hloop := putPartLoop_success B B.uploadId q
      ((file.drop ((q - 1) * P)).take P) M f hf hfail hsucc
    constructor
    · rw [hcalls, List.countP_append, List.countP_append, hprecount, hrestq, hloop]
      simp only [putPartCalls_replicate]
      rw [countP_replicate]
      simp
    · intro hres
      rcases upload_large_file_result B af file key P M hcreate _ hres with h | h
      · exact Err.noConfusion h
      · rw [hfull] at h
        simp only [] at h
        rcases uploadParts_cons_error B B.uploadId P M q _ _ _ _ h with h | ⟨p', hp', hp'e⟩
        · rw [hloop] at h
          simp at h
        · have hm := List.mem_range'_1.mp hp'
          simp only [Err.partFailed.injEq] at hp'e
          omega
  · intro hfM
    have hfail' : ∀ b, b < M → B.putPartFault q b = true := by
      intro b hb
      exact hfail b (by omega)
    have hloop := putPartLoop_exhaust B B.uploadId q
      ((file.drop ((q - 1) * P)).take P) M hM hfail'
    have hstep : uploadParts B B.uploadId P M
        (q :: List.range' (q + 1) ((file.length + P - 1) / P - q))
        (file.drop ((q - 1) * P)) (okParts B (List.range' 1 (q - 1))) =
        (List.replicate M (Event.putPart B.uploadId q
          ((file.drop ((q - 1) * P)).take P)), .error (.partFailed q M)) := by
      rw [uploadParts, hloop]
    have hrest0 : putPartCalls restEvents = [] := by
      have h := hrest
      rw [hstep] at h
      simp only [] at h
      rw [hloop] at h
      simp only [] at h
      have hlen := congrArg List.length h
      simp only [List.length_append, List.length_replicate] at hlen
      have : restEvents = [] := List.length_eq_zero.mp (by omega)
      rw [this]
      rfl
    constructor
    · have hfe : (uploadParts B B.uploadId P M
          (List.range' 1 ((file.length + P - 1) / P)) file []).2 =
          .error (.partFailed q M) := by
        rw [hfull]
        simp only []
        rw [hstep]
      simp only [upload_large_file, hcreate, Bool.false_eq_true, if_false]
      rw [hfe]
    · intro c hc
      rw [hcalls, hrest0, List.append_nil] at hc
      rcases List.mem_append.mp hc with hc | hc
      · obtain ⟨p, hp, rfl⟩ := List.mem_map.mp hc
        have h := List.mem_range'_1.mp hp
        simp only []
        omega
      · have h := putPartLoop_calls B B.uploadId q _ M c hc
        rw [h]

/-- Witness for C2: part 2 of 3 fails twice then succeeds with
`max_retries = 3`; exactly 3 backend calls are made for part 2. -/
theorem upload_large_file_retry_per_part_witness :
    (putPartCalls (upload_large_file flakyBackend false [1, 2, 3] "k" 1 3).1).countP
      (fun c => c.1 == 2) = 3 := by
  have h := upload_large_file_retry_per_part flakyBackend false [1, 2, 3] "k" 1 3 2 2
    (by decide) (by decide) (by decide) (by decide)
    (by
      intro p hp
      simp only [flakyBackend, allOkBackend]
      simp only [Bool.and_eq_false_iff]
      left
      simp only [beq_eq_false_iff_ne, ne_eq]
      omega)
    (by
      intro b hb
      simp only [flakyBackend, allOkBackend]
      simp [hb])
  exact (h.2.2.1 (by decide) (by decide)).1

/-! ## Claim C1 -/

/-- **C1.** For every file of size `S ≥ 1` bytes and every chunk size
`P ≥ 1`, if every `put_part` attempt succeeds within a positive retry
budget (and the multipart session opens), then `upload_large_file` calls
the blob store's `put_part` with part numbers exactly
`1, 2, …, ceil(S/P)` in ascending order, each part carrying the next
contiguous chunk of at most `P` bytes of the file, and the parts list
passed to `complete_multipart_upload` has exactly `ceil(S/P)` entries, one
per part number. -/
theorem upload_large_file_parts_exact
    (B : Backend) (af : Bool) (file : List Nat) (key : String) (P M : Nat)
    (hS : 1 ≤ file.length) (hP : 1 ≤ P) (hM : 1 ≤ M)
    (hcreate : B.createFault = false)
    (hok : ∀ p a, B.putPartFault p a = false) :
    putPartCalls (upload_large_file B af file key P M).1 =
      (List.range' 1 ((file.length + P - 1) / P)).map
        (fun p => (p, fileChunk file P p)) ∧
    (∀ c ∈ putPartCalls (upload_large_file B af file key P M).1,
      c.2.length ≤ P) ∧
    (completeCalls (upload_large_file B af file key P M).1).map
        (fun l => l.map Part.partNumber) =
      [List.range' 1 ((file.length + P - 1) / P)] ∧
    (completeCalls (upload_large_file B af file key P M).1).map List.length =
      [(file.length + P - 1) / P] := by
  have hparts := uploadParts_all_ok B B.uploadId P M hM
    (List.range' 1 ((file.length + P - 1) / P)) file [] (fun p _ => hok p 0)
  have hev : okEvents B.uploadId P (List.range' 1 ((file.length + P - 1) / P)) file =
      (List.range' 1 ((file.length + P - 1) / P)).map
        (fun p => Event.putPart B.uploadId p (fileChunk file P p)) := by
    have h := okEvents_aligned B.uploadId P file ((file.length + P - 1) / P) 0
    simpa using h
  have htr : putPartCalls (upload_large_file B af file key P M).1 =
      (List.range' 1 ((file.length + P - 1) / P)).map
        (fun p => (p, fileChunk file P p)) ∧
      completeCalls (upload_large_file B af file key P M).1 =
        [okParts B (List.range' 1 ((file.length + P - 1) / P))] := by
    simp only [upload_large_file, hcreate, Bool.false_eq_true, if_false]
    rw [hparts, hev]
    simp only []
    cases hcf : B.completeFault with
    | true =>
      simp only [if_true]
      constructor
      · simp [putPartCalls, List.filterMap_cons, putPartCalls_append, abortCall]
        rw [← List.filterMap_map]
        exact putPartCalls_map_putPart _ _ _
      · simp [completeCalls, List.filterMap_cons, completeCalls_append, abortCall]
    | false =>
      simp only [Bool.false_eq_true, if_false]
      constructor
      · simp [putPartCalls, List.filterMap_cons, putPartCalls_append]
        rw [← List.filterMap_map]
        exact putPartCalls_map_putPart _ _ _
      · simp [completeCalls, List.filterMap_cons, completeCalls_append]
  refine ⟨htr.1, ?_, ?_, ?_⟩
  · intro c hc
    rw [htr.1] at hc
    obtain ⟨p, _, rfl⟩ := List.mem_map.mp hc
    exact List.length_take_le _ _
  · rw [htr.2]
    simp only [okParts, List.map_cons, List.map_nil, List.map_map]
    have hcomp : (Part.partNumber ∘ fun p => Part.mk p (B.putPartEtag p 0)) = id := rfl
    rw [hcomp, List.map_id]
  · rw [htr.2]
    simp [okParts]

/-- Witness for C1: a 5-byte file with 2-byte chunks uploads parts
`1, 2, 3` carrying `[10,20]`, `[30,40]`, `[50]`. -/
theorem upload_large_file_parts_exact_witness :
    putPartCalls (upload_large_file allOkBackend false [10, 20, 30, 40, 50] "k" 2 3).1 =
      [(1, [10, 20]), (2, [30, 40]), (3, [50])] := by
  have h := (upload_large_file_parts_exact allOkBackend false [10, 20, 30, 40, 50]
    "k" 2 3 (by decide) (by decide) (by decide) (by decide) (fun p a => rfl)).1
  rw [h]
  decide

end MCUpload
